import Mathlib

/-!
Verification development for the `ciocoa/manifest` repository (`main.py`).

The program resolves a numeric Steam app identifier against candidate GitHub
repositories, walks the matching branch's file tree with a thread pool,
caches `.manifest` files, parses key documents, expands nested DLC
identifiers recursively, and emits unlock scripts (`addappid` /
`setManifestid` lua directives) through an external packer.

This file shallowly embeds the functions of `main.py` relevant to the frozen
claims:
  * `set_appinfo` (lines 124-131)  → `set_appinfo_content`, `set_appinfo_script`
  * `set_fixinfo` (lines 133-140)  → `set_fixinfo_content`
  * `check_api_limit` (lines 88-96) → `check_api_limit`
  * `check_curr_repo` (lines 98-109) → `check_curr_repo` / `ccr_loop`
  * `manifest` (lines 143-195)     → `manifestStepF` (+ `keyDocAction`,
    `vdfJsonStepsF`, `configJsonActionF`)
  * `api_request` / `raw_content` retry discipline (lines 198-218)
    → `api_request_model`, `raw_content_model`, `retryRun`
  * `start` (lines 221-249)        → `startRun`, `dispatchAllF`
  * `main` (lines 252-269, from the quota check on) → `mainCore`

Modelling conventions: network I/O is an explicit environment (`Env`) mapping
URLs to responses; Python exceptions are explicit failure results; the shared
process state (the `manifests` list, the depotcache directory, the emitted
lua scripts, the success reports, and the trace of issued requests) is an
explicit record `St` threaded through the functions.  Python string-keyed
data (depot ids, dates, paths) is modelled as `String`; numeric ids are
represented by their decimal rendering, which is how the Python f-strings
consume them.  The worker pool of `start` busy-waits for all submitted tasks
after each submission (lines 235-239), so dispatch is modelled sequentially;
the equivalence of that pooled schedule with sequential execution is proved
separately on an abstract task model (`tagTasks`, `applyTrace`).
-/

/-- Python `str.endswith(suffix)`: the suffix's characters are a suffix of
the string's characters. -/
def endswith (s suf : String) : Bool :=
  decide (suf.data <:+ s.data)

/-- Python `str.isdecimal()` for the ASCII identifiers this program handles:
nonempty and all characters are decimal digits. -/
def isdecimal (s : String) : Bool :=
  !s.data.isEmpty && s.data.all (fun c => c.isDigit)

/-- Python truthiness of an optional string (`if depot_key:`): `None` and the
empty string are falsy. -/
def truthy : Option String → Bool
  | none => false
  | some s => !(s == "")

/-- One directive line of `set_appinfo` (line 127):
`addappid({id}, 1, "{key}")` when the key is truthy, else `addappid({id}, 1)`. -/
def addappid_line (p : String × Option String) : String :=
  if truthy p.2 then
    "addappid(" ++ p.1 ++ ", 1, \"" ++ p.2.getD "" ++ "\")\n"
  else
    "addappid(" ++ p.1 ++ ", 1)\n"

/-- The lua content built by `set_appinfo` (lines 125-127): the loop
`lua_content += line` over `depot_list`, in list order. -/
def set_appinfo_content (depot_list : List (String × Option String)) : String :=
  depot_list.foldl (fun acc p => acc ++ addappid_line p) ""

/-- The script artifact written by `set_appinfo` (lines 128-129): filename
`{branch}_{D|A}.lua`, with the rendered content. -/
structure Script where
  filename : String
  content : String
deriving DecidableEq

def set_appinfo_script (branch : String) (depot_list : List (String × Option String))
    (is_dlc : Bool) : Script :=
  ⟨branch ++ "_" ++ (if is_dlc then "D" else "A") ++ ".lua",
   set_appinfo_content depot_list⟩

/-- Python `str.split(sep)` for a single-character separator, on the
character list: always returns at least one (possibly empty) group. -/
def splitChar (sep : Char) : List Char → List (List Char)
  | [] => [[]]
  | c :: cs =>
      let r := splitChar sep cs
      if c == sep then [] :: r
      else
        match r with
        | [] => [[c]]
        | g :: gs => (c :: g) :: gs

/-- One `setManifestid` directive of `set_fixinfo` (lines 135-137) for a
recorded manifest filename `depotId_manifestId.manifest`:
`(x.split('_')[0], x.split('_')[1].split('.')[0])`.  `none` models the
`IndexError` raised when the filename has no `_`. -/
def fixline (x : String) : Option String :=
  match splitChar '_' x.data with
  | p0 :: p1 :: _ =>
      some ("setManifestid(" ++ String.mk p0 ++ ", \"" ++
        String.mk ((splitChar '.' p1).headD []) ++ "\")\n")
  | _ => none

/-- The lua content built by `set_fixinfo` (lines 134-137): one directive per
recorded filename, in recorded order; `none` models the exception on the
first malformed filename. -/
def set_fixinfo_content : List String → Option String
  | [] => some ""
  | x :: xs =>
      match fixline x with
      | none => none
      | some line =>
          match set_fixinfo_content xs with
          | none => none
          | some rest => some (line ++ rest)

/-! Spec-side emitter (§4.6 step 1 of the specification, for the refinement
comparison of claim C1): deduplicate the accumulated records by identifier,
then sort by identifier ascending, then render. The code's `set_appinfo`
does neither. -/

/-- Modelled from the spec (§4.6): keep the first record for each depot
identifier, dropping records whose identifier was already seen. (On inputs
whose duplicate identifiers carry identical keys, as in the counterexample
below, every dedup policy of §9 agrees with this.) -/
def spec_dedupGo (seen : List String) : List (String × Option String) → List (String × Option String)
  | [] => []
  | p :: ps =>
      if seen.contains p.1 then spec_dedupGo seen ps
      else p :: spec_dedupGo (p.1 :: seen) ps

def spec_dedupById (l : List (String × Option String)) : List (String × Option String) :=
  spec_dedupGo [] l

/-- Executable lexicographic strict order on character lists (the standard
order on strings; `String.lt` agrees with it but is not kernel-executable). -/
def charListLt : List Char → List Char → Bool
  | [], [] => false
  | [], _ :: _ => true
  | _ :: _, [] => false
  | a :: as, b :: bs => if a < b then true else if b < a then false else charListLt as bs

/-- Executable `≤` on strings, via `charListLt`. -/
def strLe (a b : String) : Bool := !(charListLt b.data a.data)

/-- Modelled from the spec (§4.6 steps 1-2): deduplicate by identifier, sort
by identifier ascending, render one directive line per record. -/
def spec_emitter_render (dl : List (String × Option String)) : String :=
  String.join
    (((spec_dedupById dl).insertionSort (fun a b => strLe a.1 b.1 = true)).map addappid_line)

/-! The repository resolver `check_curr_repo` (lines 98-109). `branch_date`
abstracts `api_request(.../branches/{appid})`: `some date` when the response
is a dict containing `commit` (the branch exists), `none` when `api_request`
returned `None` (e.g. a 404) or the dict lacks `commit`; a raised exception
aborts the whole run and is outside this function's own behaviour. -/

def branchUrl (repo branch : String) : String :=
  "https://api.github.com/repos/" ++ repo ++ "/branches/" ++ branch

/-- The loop of `check_curr_repo` (lines 101-107) over the remaining
candidate list, carrying the loop variables `last_date` and `curr_repo`;
a candidate replaces the current selection only on `date > last_date`
(strict).  The source compares ISO-8601 date strings with Python `>`, i.e.
lexicographically; the date domain is abstracted here as any linear order
`δ` with the same strict comparison. -/
def ccr_loop {δ : Type} [LinearOrder δ] (bd : String → Option δ) :
    List String → Option δ → Option String → Option String
  | [], _, curr => curr
  | repo :: rest, last, curr =>
      match bd repo with
      | none => ccr_loop bd rest last curr
      | some date =>
          match last with
          | none => ccr_loop bd rest (some date) (some repo)
          | some ld =>
              if ld < date then ccr_loop bd rest (some date) (some repo)
              else ccr_loop bd rest last curr

/-- `check_curr_repo` (lines 98-109): scan candidates left to right starting
from `last_date = None`, `curr_repo = None`. -/
def check_curr_repo {δ : Type} [LinearOrder δ] (repos : List String)
    (bd : String → Option δ) : Option String :=
  ccr_loop bd repos none none

/-- The branch-lookup URLs issued by `check_curr_repo`: one per candidate,
in list order (the loop never breaks early). -/
def check_curr_repo_urls (repos : List String) (appid : String) : List String :=
  repos.map (fun r => branchUrl r appid)

/-! The tree walker and entry dispatcher (`start`, lines 221-249, and
`manifest`, lines 143-195). -/

/-- A tree entry of the commit tree listing (only `path` is consumed,
line 234). -/
structure TreeEntry where
  path : String
deriving DecidableEq

/-- The fields read from a branch-lookup response in `start` (lines
222-225): `name`, `commit.commit.tree.url`, `commit.commit.committer.date`. -/
structure BranchInfo where
  name : String
  treeUrl : String
  commitDate : String
deriving DecidableEq

/-- The shape read from a `config.json` response (lines 176-177).  The outer
`Option` on `dlcs` / `apps` models presence of the key (a missing key raises
`KeyError`); the inner one models a JSON `null` value (the `dlcs is None`
guard of line 180).  Numeric DLC ids are represented by their decimal
rendering, which is how the f-strings of `set_appinfo` consume them. -/
structure ConfigJson where
  dlcs : Option (Option (List String))
  apps : Option (Option (List String))
  packagedlcs : Option (List String)
deriving DecidableEq

/-- The network environment: responses per URL.  `Except.error ()` models a
Python exception escaping the call (e.g. `api_request` / `raw_content`
exhausting their retries, `None` being subscripted, or a parse error);
`vdfDepots` abstracts `vdf.loads(...)['depots']` as the list of
`(depot id, DecryptionKey)` items of the parsed key document. -/
structure Env where
  branchRes : String → String → Except Unit BranchInfo
  treeRes : String → Except Unit (Option (List TreeEntry))
  rawRes : String → Except Unit String
  vdfDepots : String → Option (List (String × String))
  configRes : String → Except Unit ConfigJson

/-- The process-wide shared state: the `manifests` filename list (line 277),
the `depotcache` directory contents, the trace of issued network requests,
the emitted lua scripts (via `set_stool`), and the identifiers reported as
successfully stored (line 249). -/
structure St where
  manifests : List String
  cache : List (String × String)
  requests : List String
  emitted : List Script
  reported : List String
deriving DecidableEq

def st0 : St := ⟨[], [], [], [], []⟩

def addReq (s : St) (url : String) : St :=
  { s with requests := s.requests ++ [url] }

/-- `save_path.exists()` (line 154) against the modelled cache directory. -/
def cacheHas (s : St) (path : String) : Bool :=
  s.cache.any (fun p => p.1 == path)

def rawUrl (repo branch path : String) : String :=
  "https://raw.githubusercontent.com/" ++ repo ++ "/" ++ branch ++ "/" ++ path

/-- The key-document block of `manifest` (lines 163-173): fetch the raw
content, parse the depot/key mapping, prepend the branch itself as an
unkeyed record when the branch is decimal and this is not a nested (ddlc)
invocation, and emit the `addappid` script (with `is_dlc = False`). -/
def keyDocAction (env : Env) (repo branch path : String) (is_ddlc : Bool) (s : St) :
    St × Bool :=
  let url := rawUrl repo branch path
  let s := addReq s url
  match env.rawRes url with
  | .error _ => (s, false)
  | .ok content =>
      match env.vdfDepots content with
      | none => (s, false)
      | some depots =>
          let dl := depots.map (fun p => (p.1, some p.2))
          let dl := if isdecimal branch && !is_ddlc then (branch, (none : Option String)) :: dl else dl
          ({ s with emitted := s.emitted ++ [set_appinfo_script branch dl false] }, true)

/-- The metadata-document block of `manifest` (lines 174-192), parameterised
by the nested tree-walk `startNested` (line 189 invokes
`start(repo, dlc, steam_path, is_ddlc=True)`; an exception there aborts the
loop and the task).  Reads `dlcs` for decimal branches, `apps` otherwise
(`KeyError` if missing), extends the depot list with the plain DLCs and the
standalone (`packagedlcs`) DLCs, recursively walks each standalone DLC, and
finally emits the `addappid` script with `is_dlc = True` when any records
were collected. -/
def cfgFinish (branch : String) (dl1 : List (String × Option String)) (r : St × Bool) :
    St × Bool :=
  if r.2 then
    if 0 < dl1.length then
      ({ r.1 with emitted := r.1.emitted ++ [set_appinfo_script branch dl1 true] }, true)
    else (r.1, true)
  else (r.1, false)

/-- The `for dlc in ddlc: start(...)` loop of lines 188-189: the nested
walks run left to right; an exception (a `false` result) aborts the loop
and the remaining iterations. -/
def ddlcLoop (startNested : String → St → St × Bool) (dd : List String) (s : St) :
    St × Bool :=
  dd.foldl (fun (acc : St × Bool) dlc => if acc.2 then startNested dlc acc.1 else acc) (s, true)

def configJsonActionF (startNested : String → St → St × Bool) (env : Env)
    (repo branch : String) (is_ddlc : Bool) (s : St) : St × Bool :=
  let url := rawUrl repo branch "config.json"
  let s := addReq s url
  match env.configRes url with
  | .error _ => (s, false)
  | .ok cfg =>
      match (if isdecimal branch then cfg.dlcs else cfg.apps) with
      | none => (s, false)
      | some dlcs =>
          let dl0 : List (String × Option String) :=
            match dlcs with
            | some ds => if 0 < ds.length then ds.map (fun k => (k, none)) else []
            | none => []
          match cfg.packagedlcs with
          | some dd =>
              if 0 < dd.length then
                cfgFinish branch (dl0 ++ dd.map (fun k => (k, (none : Option String))))
                  (ddlcLoop startNested dd s)
              else cfgFinish branch dl0 (s, true)
          | none => cfgFinish branch dl0 (s, true)

/-- The `.vdf` and `.json` blocks of `manifest` (lines 163-192), run in
source order; an exception in the `.vdf` block aborts before the `.json`
block. -/
def vdfJsonStepsF (startNested : String → St → St × Bool) (env : Env)
    (repo branch path : String) (is_ddlc : Bool) (s : St) : St × Bool :=
  let r1 :=
    if endswith path ".vdf" && (path == "config.vdf" || path == "Key.vdf") then
      keyDocAction env repo branch path is_ddlc s
    else (s, true)
  if r1.2 then
    if endswith path ".json" && (path == "config.json") then
      configJsonActionF startNested env repo branch is_ddlc r1.1
    else r1
  else r1

/-- One dispatch task: the body of `manifest` (lines 143-195) for a single
tree entry.  For a `.manifest` path: record the filename (line 148,
unconditionally, before the existence check), then either skip (cache hit,
lines 154-157, early `return`) or fetch and write the file (lines 158-162)
and fall through to the remaining blocks.  The `Bool` is `false` when the
task raised. -/
def manifestStepF (startNested : String → St → St × Bool) (env : Env)
    (repo branch path : String) (is_ddlc : Bool) (s : St) : St × Bool :=
  if endswith path ".manifest" then
    let s := { s with manifests := s.manifests ++ [path] }
    if cacheHas s path then (s, true)
    else
      let url := rawUrl repo branch path
      let s := addReq s url
      match env.rawRes url with
      | .error _ => (s, false)
      | .ok content =>
          vdfJsonStepsF startNested env repo branch path is_ddlc
            { s with cache := s.cache ++ [(path, content)] }
  else vdfJsonStepsF startNested env repo branch path is_ddlc s

/-- The dispatch loop of `start` (lines 230-243): one task per tree entry.
The busy-wait after each submission (lines 235-239) waits for every task
submitted so far, so tasks run one at a time in tree order (the equivalence
of that pooled schedule with this sequential model is proved on the abstract
pool model below); a failed task does not stop the submission of later
tasks, it only records an unsuccessful result (line 244). -/
def dispatchAllF (startNested : String → St → St × Bool) (env : Env)
    (repo branch : String) (is_ddlc : Bool) : List TreeEntry → St → St × List Bool
  | [], s => (s, [])
  | e :: es, s =>
      let r := manifestStepF startNested env repo branch e.path is_ddlc s
      let rest := dispatchAllF startNested env repo branch is_ddlc es r.1
      (rest.1, r.2 :: rest.2)

/-- The pre-dispatch implicit record of `start` (lines 228-229): a decimal,
non-nested branch immediately emits an `addappid` script for itself. -/
def implicitEmit (bi : BranchInfo) (is_ddlc : Bool) (s : St) : St :=
  if isdecimal bi.name && !is_ddlc then
    { s with emitted := s.emitted ++ [set_appinfo_script bi.name [(bi.name, none)] false] }
  else s

/-- The state just before the dispatch loop of `start`: both lookups issued
(lines 222, 226) plus the implicit pre-dispatch emission (lines 228-229). -/
def preDispatch (repo branch : String) (bi : BranchInfo) (is_ddlc : Bool) (s : St) : St :=
  implicitEmit bi is_ddlc (addReq (addReq s (branchUrl repo branch)) bi.treeUrl)

/-- `start` (lines 221-249).  `fuel` bounds the recursion depth of nested
DLC expansion (the source has no cycle guard; every nested call consumes one
unit).  The `Bool` is `false` when `start` itself raised (branch lookup or
tree fetch failed, `set_fixinfo` raised, or the fuel ran out).  After the
barrier (line 244): only a non-nested invocation with all tasks successful
runs `set_fixinfo` (in fixed mode, lines 246-247) and reports success
(line 249); task failures themselves do not make `start` raise. -/
def startRun : Nat → Env → Bool → String → String → Bool → St → St × Bool
  | 0, _, _, _, _, _, s => (s, false)
  | Nat.succ f, env, fixed, repo, branch, is_ddlc, s =>
      let s := addReq s (branchUrl repo branch)
      match env.branchRes repo branch with
      | .error _ => (s, false)
      | .ok bi =>
          let s := addReq s bi.treeUrl
          match env.treeRes bi.treeUrl with
          | .error _ => (s, false)
          | .ok none => (s, true)
          | .ok (some tree) =>
              let s1 := implicitEmit bi is_ddlc s
              let p := dispatchAllF (fun dlc st => startRun f env fixed repo dlc true st)
                env repo bi.name is_ddlc tree s1
              if p.2.all (fun b => b) then
                if is_ddlc then (p.1, true)
                else
                  if fixed then
                    match set_fixinfo_content p.1.manifests with
                    | none => (p.1, false)
                    | some c =>
                        ({ p.1 with
                            emitted := p.1.emitted ++ [Script.mk (bi.name ++ "_F.lua") c],
                            reported := p.1.reported ++ [bi.name] }, true)
                  else ({ p.1 with reported := p.1.reported ++ [bi.name] }, true)
              else (p.1, true)

/-- One dispatch task at recursion budget `fuel` (wrapper fixing the nested
walk to `start(repo, dlc, ..., is_ddlc=True)`, line 189). -/
def manifestStep (fuel : Nat) (env : Env) (fixed : Bool)
    (repo branch path : String) (is_ddlc : Bool) (s : St) : St × Bool :=
  manifestStepF (fun dlc st => startRun fuel env fixed repo dlc true st)
    env repo branch path is_ddlc s

/-- The dispatch loop at recursion budget `fuel`. -/
def dispatchAll (fuel : Nat) (env : Env) (fixed : Bool)
    (repo branch : String) (is_ddlc : Bool) (tree : List TreeEntry) (s : St) : St × List Bool :=
  dispatchAllF (fun dlc st => startRun fuel env fixed repo dlc true st)
    env repo branch is_ddlc tree s

/-! The HTTP fetch retry discipline (`@retry(wait_fixed=1000,
stop_max_attempt_number=10)`, lines 198-218).  The `retrying` decorator
retries only on a raised exception (up to `stop_max_attempt_number`
attempts, with a fixed `wait_fixed` delay between attempts) and re-raises
after the last attempt; a value returned by the body — including the
implicit `None` fall-through when the status is not 200 — ends the call at
once. -/

def wait_fixed : Nat := 1000

def stop_max_attempt_number : Nat := 10

/-- Outcome of a single attempt of the decorated body: it raised, or it
returned a value (`none` models the implicit `None` return). -/
inductive Attempt (β : Type) where
  | raised : Attempt β
  | value : Option β → Attempt β
deriving DecidableEq

/-- The retry loop: attempt `k` (1-indexed) with `remaining` attempts left;
a returned value ends the call with the number of attempts used, exhausting
the attempts re-raises (`Except.error`). -/
def retryGo (f : Nat → Attempt β) : Nat → Nat → Except Unit (Option β × Nat)
  | _, 0 => .error ()
  | k, Nat.succ rem =>
      match f k with
      | .value v => .ok (v, k)
      | .raised => retryGo f (k + 1) rem

/-- A decorated call against a stream of attempt outcomes. -/
def retryRun (f : Nat → Attempt β) : Except Unit (Option β × Nat) :=
  retryGo f 1 stop_max_attempt_number

/-- A single HTTP exchange as seen by `api_request`: a raised exception
(connection error etc.), or a response with a status code and a body that
parsed as JSON (`some`) or not (`none`). -/
inductive HttpExchange (β : Type) where
  | exc : HttpExchange β
  | resp : Nat → Option β → HttpExchange β
deriving DecidableEq

/-- One attempt of the body of `api_request` (lines 199-208): a raised
exception propagates; `result.json()` on an unparseable body raises
(line 205, before the status check); a 200 status returns the document;
any other status falls through and returns `None`. -/
def api_attempt : HttpExchange β → Attempt β
  | .exc => .raised
  | .resp status body =>
      match body with
      | none => .raised
      | some j => if status = 200 then .value (some j) else .value none

/-- `api_request` under the retry decorator, against the per-attempt
exchanges `responses`. -/
def api_request_model (responses : Nat → HttpExchange β) : Except Unit (Option β × Nat) :=
  retryRun (fun k => api_attempt (responses k))

/-- A single HTTP exchange as seen by `raw_content`: a raised exception, or
a response with a status code and raw bytes. -/
inductive RawExchange (β : Type) where
  | exc : RawExchange β
  | resp : Nat → β → RawExchange β
deriving DecidableEq

/-- One attempt of the body of `raw_content` (lines 212-218): a 200 status
returns the content, any other status returns `None`, with no parse step. -/
def raw_attempt : RawExchange β → Attempt β
  | .exc => .raised
  | .resp status content => if status = 200 then .value (some content) else .value none

/-- `raw_content` under the retry decorator. -/
def raw_content_model (responses : Nat → RawExchange β) : Except Unit (Option β × Nat) :=
  retryRun (fun k => raw_attempt (responses k))

/-! The rate-limit guard `check_api_limit` (lines 88-96) and the run
orchestration `main` (lines 252-269) from the quota check onward (the
preceding Steam/Stool directory probes issue no network requests). -/

def rate_limit_url : String := "https://api.github.com/rate_limit"

/-- The `rate` object of the quota response: `reset` (epoch seconds) and
`remaining`. -/
structure RateInfo where
  reset : Nat
  remaining : Nat
deriving DecidableEq

/-- `check_api_limit` (lines 88-96): one request to the fixed quota
endpoint; returns the reset time rendered by `fmt` (modelling
`time.strftime('%Y-%m-%d %H:%M:%S', time.localtime(reset))`) exactly when
`remaining == 0`, and the list of requests it issued. -/
def check_api_limit (fmt : Nat → String) (rate : RateInfo) : Option String × List String :=
  (if rate.remaining = 0 then some (fmt rate.reset) else none, [rate_limit_url])

/-- Outcome of `main` after the local-directory probes. -/
inductive Outcome where
  | quotaExhausted : String → Outcome
  | noRepo : Outcome
  | ran : Bool → Outcome
deriving DecidableEq

/-- `main` from line 261 on: the quota guard (aborting before any further
request when it returns a reset time, lines 262-264), then the repository
resolver (lines 265-268), then the tree walk (line 269). -/
def mainCore {δ : Type} [LinearOrder δ] (fuel : Nat) (env : Env) (fixed : Bool)
    (fmt : Nat → String) (rate : RateInfo) (bd : String → Option δ)
    (repos : List String) (appid : String) (s : St) : St × Outcome :=
  let q := check_api_limit fmt rate
  let s := { s with requests := s.requests ++ q.2 }
  match q.1 with
  | some t => (s, .quotaExhausted t)
  | none =>
      let s := { s with requests := s.requests ++ check_curr_repo_urls repos appid }
      match check_curr_repo repos bd with
      | none => (s, .noRepo)
      | some repo =>
          let r := startRun fuel env fixed repo appid false s
          (r.1, .ran r.2)

/-! Abstract model of the worker-pool schedule of `start` (lines 230-243),
for the pooled-vs-sequential equivalence.  Each dispatch task is a list of
atomic operations on a state `α` (its mutations of the shared state, in
program order).  An execution trace of the pool is a list of operations
tagged with (task index, operation index).  The code submits task `i+1`
only after busy-waiting for every task submitted so far (the
`while True: if all(j.ready() ...)` loop is inside the `for`, lines
235-239), so in every reachable trace all operations of task `i` precede
all operations of task `j` for `i < j`, and each task's operations appear
in program order: the trace's tags are strictly lexicographically
increasing.  A trace executes each submitted operation exactly once: it is
a permutation of the tagged task list. -/

def applyTrace (tr : List (α → α)) (s : α) : α :=
  tr.foldl (fun st f => f st) s

/-- Tag every operation with (task index, operation index), tasks numbered
from `i`. -/
def tagFrom (i : Nat) : List (List (α → α)) → List ((Nat × Nat) × (α → α))
  | [] => []
  | t :: ts => (t.enum.map (fun p => ((i, p.1), p.2))) ++ tagFrom (i + 1) ts

def tagTasks (tasks : List (List (α → α))) : List ((Nat × Nat) × (α → α)) :=
  tagFrom 0 tasks

/-- Strict lexicographic order on the tags of two tagged operations. -/
def tagLt (a b : (Nat × Nat) × (α → α)) : Prop :=
  a.1.1 < b.1.1 ∨ (a.1.1 = b.1.1 ∧ a.1.2 < b.1.2)

/-- Sequential left-to-right processing: run every task to completion in
task order. -/
def seqRun (tasks : List (List (α → α))) (s : α) : α :=
  applyTrace tasks.flatten s

/-! Concrete environments used by the closed examples below. -/

/-- An environment in which every network call fails. -/
def envTrivial : Env :=
  ⟨fun _ _ => .error (), fun _ => .error (), fun _ => .error (),
   fun _ => none, fun _ => .error ()⟩

/-- Branch `123` resolves; its tree has one `.manifest` entry whose download
fails and a `config.vdf` key document that parses to depot `100` with key
`ABCD`. -/
def env0 : Env where
  branchRes := fun _ branch => .ok ⟨branch, "tree:" ++ branch, "2024-01-01"⟩
  treeRes := fun u =>
    if u == "tree:123" then .ok (some [⟨"666_1.manifest"⟩, ⟨"config.vdf"⟩]) else .ok none
  rawRes := fun url =>
    if url == rawUrl "r" "123" "666_1.manifest" then .error () else .ok "KEYDOC"
  vdfDepots := fun c => if c == "KEYDOC" then some [("100", "ABCD")] else none
  configRes := fun _ => .error ()

/-- Branch `123` resolves; its tree is just the key document, and every raw
fetch succeeds. -/
def env7 : Env where
  branchRes := fun _ branch => .ok ⟨branch, "tree:" ++ branch, "2024-01-01"⟩
  treeRes := fun u => if u == "tree:123" then .ok (some [⟨"config.vdf"⟩]) else .ok none
  rawRes := fun _ => .ok "KEYDOC"
  vdfDepots := fun c => if c == "KEYDOC" then some [("100", "ABCD")] else none
  configRes := fun _ => .error ()

/-! Theorems. -/

theorem sac_go (dl : List (String × Option String)) (init : String) :
    dl.foldl (fun acc p => acc ++ addappid_line p) init = init ++ set_appinfo_content dl := by
  induction dl generalizing init with
  | nil => simp [set_appinfo_content]
  | cons p ps ih =>
      show List.foldl _ (init ++ addappid_line p) ps = _
      rw [ih]
      show _ = init ++ List.foldl _ ("" ++ addappid_line p) ps
      rw [ih ("" ++ addappid_line p)]
      simp [String.append_assoc]

/-- C1 counterexample: with the accumulated records
`[(2, no key), (1, no key), (2, no key)]`, `set_appinfo` renders three
directive lines, in accumulation order `2, 1, 2` — the identifier `2` gets
two lines and the output is not in ascending identifier order, unlike the
deduplicated, sorted rendering the claim describes. -/
theorem set_appinfo_no_dedup_sort_counterexample :
    set_appinfo_content [("2", none), ("1", none), ("2", none)]
        = "addappid(2, 1)\naddappid(1, 1)\naddappid(2, 1)\n" ∧
    set_appinfo_content [("2", none), ("1", none), ("2", none)]
        ≠ spec_emitter_render [("2", none), ("1", none), ("2", none)] := by
  constructor <;> decide

/-- C1 (amended): the Unlock-Script Emitter `set_appinfo` performs no
deduplication and no sorting: it renders exactly one `addappid` directive
line per accumulated Depot Record, in accumulation order (rendering is a
concatenation homomorphism), so a depot identifier occurring in k records
yields k directive lines. -/
theorem set_appinfo_renders_in_order (dl1 dl2 : List (String × Option String))
    (p : String × Option String) :
    set_appinfo_content (dl1 ++ dl2) = set_appinfo_content dl1 ++ set_appinfo_content dl2 ∧
    set_appinfo_content [p] = addappid_line p ∧
    set_appinfo_content ([] : List (String × Option String)) = "" := by
  refine ⟨?_, ?_, rfl⟩
  · show List.foldl _ "" (dl1 ++ dl2) = _
    rw [List.foldl_append, sac_go, sac_go]
    simp
  · show ("" : String) ++ addappid_line p = _
    simp

/-- C5: the rate-limit guard issues exactly one request (to the fixed quota
endpoint), returns the rendered reset time iff the remaining quota is zero
(and nothing otherwise), and when it returns a reset time the run aborts at
once: the whole run's request trace is that single quota request, so no
tree-walk network call is ever issued. -/
theorem quota_guard_short_circuit {δ : Type} [LinearOrder δ] (fuel : Nat) (env : Env)
    (fixed : Bool) (fmt : Nat → String) (rate : RateInfo) (bd : String → Option δ)
    (repos : List String) (appid : String) (s : St) :
    (check_api_limit fmt rate).2 = [rate_limit_url] ∧
    (rate.remaining = 0 → (check_api_limit fmt rate).1 = some (fmt rate.reset)) ∧
    (rate.remaining ≠ 0 → (check_api_limit fmt rate).1 = none) ∧
    (rate.remaining = 0 →
      mainCore fuel env fixed fmt rate bd repos appid s
        = ({ s with requests := s.requests ++ [rate_limit_url] },
           Outcome.quotaExhausted (fmt rate.reset))) := by
  refine ⟨rfl, ?_, ?_, ?_⟩
  · intro h; simp [check_api_limit, h]
  · intro h; simp [check_api_limit, h]
  · intro h; simp [mainCore, check_api_limit, h]

theorem quota_guard_short_circuit_witness :
    mainCore 1 envTrivial false (fun _ => "RESET") ⟨77, 0⟩ (fun _ => (none : Option Nat))
        ["r"] "1" st0
      = ({ st0 with requests := [rate_limit_url] }, Outcome.quotaExhausted "RESET") := by
  have h := (quota_guard_short_circuit 1 envTrivial false (fun _ => "RESET") ⟨77, 0⟩
    (fun _ => (none : Option Nat)) ["r"] "1" st0).2.2.2 rfl
  simpa [st0] using h

theorem retryGo_value {β : Type} (f : Nat → Attempt β) :
    ∀ (rem k j : Nat) (v : Option β), k ≤ j → j < k + rem →
      (∀ i, k ≤ i → i < j → f i = .raised) → f j = .value v →
      retryGo f k rem = .ok (v, j) := by
  intro rem
  induction rem with
  | zero => intro k j v hkj hlt _ _; omega
  | succ r ih =>
      intro k j v hkj hlt hr hv
      by_cases hk : k = j
      · subst hk; simp [retryGo, hv]
      · have hklt : k < j := lt_of_le_of_ne hkj hk
        have hrk : f k = .raised := hr k le_rfl hklt
        rw [retryGo, hrk]
        exact ih (k + 1) j v hklt (by omega) (fun i h1 h2 => hr i (by omega) h2) hv

theorem retryGo_raised {β : Type} (f : Nat → Attempt β) :
    ∀ (rem k : Nat), (∀ i, k ≤ i → i < k + rem → f i = .raised) →
      retryGo f k rem = .error () := by
  intro rem
  induction rem with
  | zero => intro k _; rfl
  | succ r ih =>
      intro k hr
      have hrk : f k = .raised := hr k le_rfl (by omega)
      rw [retryGo, hrk]
      exact ih (k + 1) (fun i h1 h2 => hr i (by omega) (by omega))

/-- C6 counterexample: a response with status 500 and a well-formed body is
not retried — `api_request` returns an absent result after a single attempt
instead of retrying and surfacing a failure; likewise `raw_content` on a
404. -/
theorem non200_not_retried_counterexample :
    api_request_model (fun _ => HttpExchange.resp 500 (some 0)) = .ok ((none : Option Nat), 1) ∧
    api_request_model (fun _ => HttpExchange.resp 500 (some (0 : Nat))) ≠ .error () ∧
    raw_content_model (fun _ => RawExchange.resp 404 (0 : Nat)) = .ok (none, 1) := by
  refine ⟨rfl, ?_, rfl⟩
  intro h
  have h2 : (Except.ok ((none : Option Nat), 1) : Except Unit (Option Nat × Nat))
      = .error () := h
  exact Except.noConfusion h2

/-- C6 (amended): a raised exception — including a malformed (unparseable)
body in the JSON mode, which raises at `result.json()` — is retried up to
the bounded attempt count (10, with the fixed `wait_fixed` delay between
attempts), and exhausting all attempts surfaces the failure to the caller;
but a non-200 status with a parseable body (or any non-200 in the raw
mode) is NOT retried: the call returns an absent result at the first such
response. -/
theorem retry_policy_amended {β : Type} :
    (∀ (f : Nat → Attempt β) (j : Nat) (v : Option β), 1 ≤ j → j ≤ stop_max_attempt_number →
        (∀ k, 1 ≤ k → k < j → f k = .raised) → f j = .value v →
        retryRun f = .ok (v, j)) ∧
    (∀ f : Nat → Attempt β, (∀ k, 1 ≤ k → k ≤ stop_max_attempt_number → f k = .raised) →
        retryRun f = .error ()) ∧
    (api_attempt (.exc : HttpExchange β) = .raised) ∧
    (∀ status, api_attempt (.resp status (none : Option β)) = .raised) ∧
    (∀ b : β, api_attempt (.resp 200 (some b)) = .value (some b)) ∧
    (∀ status (b : β), status ≠ 200 → api_attempt (.resp status (some b)) = .value none) ∧
    (raw_attempt (.exc : RawExchange β) = .raised) ∧
    (∀ b : β, raw_attempt (.resp 200 b) = .value (some b)) ∧
    (∀ status (b : β), status ≠ 200 → raw_attempt (.resp status b) = .value none) := by
  refine ⟨?_, ?_, rfl, fun _ => rfl, fun b => by simp [api_attempt], ?_, rfl,
    fun b => by simp [raw_attempt], ?_⟩
  · intro f j v h1 h2 hr hv
    exact retryGo_value f stop_max_attempt_number 1 j v h1 (by omega) hr hv
  · intro f hr
    exact retryGo_raised f stop_max_attempt_number 1 (fun i hi1 hi2 => hr i hi1 (by omega))
  · intro status b h; simp [api_attempt, h]
  · intro status b h; simp [raw_attempt, h]

theorem retry_policy_amended_witness :
    retryRun (fun k => if k < 3 then Attempt.raised else Attempt.value (some 7)) = .ok (some 7, 3) ∧
    retryRun (fun _ => (Attempt.raised : Attempt Nat)) = .error () := by
  constructor
  · exact (retry_policy_amended (β := Nat)).1 _ 3 (some 7) (by omega) (by decide)
      (fun k h1 h2 => by simp [show k < 3 by omega]) (by simp)
  · exact (retry_policy_amended (β := Nat)).2.1 _ (fun k h1 h2 => rfl)

theorem ccr_ne_none {δ : Type} [LinearOrder δ] (bd : String → Option δ) :
    ∀ (rest : List String) (d0 : δ) (r0 : String),
      ccr_loop bd rest (some d0) (some r0) ≠ none := by
  intro rest
  induction rest with
  | nil => intro d0 r0 h; exact Option.noConfusion h
  | cons x xs ih =>
      intro d0 r0
      cases hbx : bd x with
      | none => simpa [ccr_loop, hbx] using ih d0 r0
      | some dx =>
          by_cases hlt : d0 < dx
          · simpa [ccr_loop, hbx, hlt] using ih dx x
          · simpa [ccr_loop, hbx, hlt] using ih d0 r0

theorem ccr_spec {δ : Type} [LinearOrder δ] (bd : String → Option δ) :
    ∀ (rest : List String) (d0 : δ) (r0 : String) (r : String),
      ccr_loop bd rest (some d0) (some r0) = some r →
      (r = r0 ∧ ∀ r' ∈ rest, ∀ d', bd r' = some d' → d' ≤ d0) ∨
      (∃ d pre post, rest = pre ++ r :: post ∧ bd r = some d ∧ d0 < d ∧
        (∀ r' ∈ rest, ∀ d', bd r' = some d' → d' ≤ d) ∧
        (∀ r' ∈ pre, ∀ d', bd r' = some d' → d' < d)) := by
  intro rest
  induction rest with
  | nil =>
      intro d0 r0 r h
      left
      have hr : r0 = r := by simpa [ccr_loop] using h
      exact ⟨hr.symm, by simp⟩
  | cons x xs ih =>
      intro d0 r0 r h
      cases hbx : bd x with
      | none =>
          rw [ccr_loop, hbx] at h
          rcases ih d0 r0 r h with ⟨hr, hmax⟩ | ⟨d, pre, post, hsplit, hbd, hlt, hmax, hpre⟩
          · left
            refine ⟨hr, ?_⟩
            intro r' hr' d' hd'
            rcases List.mem_cons.1 hr' with h1 | h1
            · subst h1; rw [hbx] at hd'; exact Option.noConfusion hd'
            · exact hmax r' h1 d' hd'
          · right
            refine ⟨d, x :: pre, post, by simp [hsplit], hbd, hlt, ?_, ?_⟩
            · intro r' hr' d' hd'
              rcases List.mem_cons.1 hr' with h1 | h1
              · subst h1; rw [hbx] at hd'; exact Option.noConfusion hd'
              · exact hmax r' h1 d' hd'
            · intro r' hr' d' hd'
              rcases List.mem_cons.1 hr' with h1 | h1
              · subst h1; rw [hbx] at hd'; exact Option.noConfusion hd'
              · exact hpre r' h1 d' hd'
      | some dx =>
          by_cases hlt0 : d0 < dx
          · simp only [ccr_loop, hbx] at h
            rw [if_pos hlt0] at h
            rcases ih dx x r h with ⟨hr, hmax⟩ | ⟨d, pre, post, hsplit, hbd, hlt, hmax, hpre⟩
            · right
              subst hr
              refine ⟨dx, [], xs, rfl, hbx, hlt0, ?_, by simp⟩
              intro r' hr' d' hd'
              rcases List.mem_cons.1 hr' with h1 | h1
              · subst h1
                rw [hbx] at hd'
                exact le_of_eq (Option.some_inj.mp hd').symm
              · exact hmax r' h1 d' hd'
            · right
              refine ⟨d, x :: pre, post, by simp [hsplit], hbd, lt_trans hlt0 hlt, ?_, ?_⟩
              · intro r' hr' d' hd'
                rcases List.mem_cons.1 hr' with h1 | h1
                · subst h1
                  have hdd : d' = dx := by
                    rw [hbx] at hd'
                    exact (Option.some_inj.mp hd').symm
                  subst hdd
                  exact le_of_lt hlt
                · exact hmax r' h1 d' hd'
              · intro r' hr' d' hd'
                rcases List.mem_cons.1 hr' with h1 | h1
                · subst h1
                  have hdd : d' = dx := by
                    rw [hbx] at hd'
                    exact (Option.some_inj.mp hd').symm
                  subst hdd
                  exact hlt
                · exact hpre r' h1 d' hd'
          · simp only [ccr_loop, hbx] at h
            rw [if_neg hlt0] at h
            rcases ih d0 r0 r h with ⟨hr, hmax⟩ | ⟨d, pre, post, hsplit, hbd, hltd, hmax, hpre⟩
            · left
              refine ⟨hr, ?_⟩
              intro r' hr' d' hd'
              rcases List.mem_cons.1 hr' with h1 | h1
              · subst h1
                have hdd : d' = dx := by
                  rw [hbx] at hd'
                  exact (Option.some_inj.mp hd').symm
                subst hdd
                exact not_lt.1 hlt0
              · exact hmax r' h1 d' hd'
            · right
              refine ⟨d, x :: pre, post, by simp [hsplit], hbd, hltd, ?_, ?_⟩
              · intro r' hr' d' hd'
                rcases List.mem_cons.1 hr' with h1 | h1
                · subst h1
                  have hdd : d' = dx := by
                    rw [hbx] at hd'
                    exact (Option.some_inj.mp hd').symm
                  subst hdd
                  exact le_trans (not_lt.1 hlt0) (le_of_lt hltd)
                · exact hmax r' h1 d' hd'
              · intro r' hr' d' hd'
                rcases List.mem_cons.1 hr' with h1 | h1
                · subst h1
                  have hdd : d' = dx := by
                    rw [hbx] at hd'
                    exact (Option.some_inj.mp hd').symm
                  subst hdd
                  exact lt_of_le_of_lt (not_lt.1 hlt0) hltd
                · exact hpre r' h1 d' hd'

/-- C3: the resolver scans the candidate repositories left to right; it
returns none exactly when no candidate's branch lookup succeeds, and when
it returns a repository that repository's branch lookup succeeded with the
maximum commit date over all candidates, every strictly earlier candidate
in the scan having a strictly smaller date (first-seen maximum under the
strict `>` comparison, so equal dates keep the earlier candidate). -/
theorem check_curr_repo_correct {δ : Type} [LinearOrder δ] (repos : List String)
    (bd : String → Option δ) :
    (check_curr_repo repos bd = none ↔ ∀ r ∈ repos, bd r = none) ∧
    (∀ r, check_curr_repo repos bd = some r →
      ∃ d pre post, repos = pre ++ r :: post ∧ bd r = some d ∧
        (∀ r' ∈ repos, ∀ d', bd r' = some d' → d' ≤ d) ∧
        (∀ r' ∈ pre, ∀ d', bd r' = some d' → d' < d)) := by
  constructor
  · induction repos with
    | nil => simp [check_curr_repo, ccr_loop]
    | cons x xs ih =>
        constructor
        · intro h
          unfold check_curr_repo at h
          cases hbx : bd x with
          | none =>
              rw [ccr_loop, hbx] at h
              intro r hr
              rcases List.mem_cons.1 hr with h1 | h1
              · subst h1; exact hbx
              · exact (ih.1 h) r h1
          | some dx =>
              rw [ccr_loop, hbx] at h
              exact absurd h (ccr_ne_none bd xs dx x)
        · intro h
          unfold check_curr_repo
          rw [ccr_loop, h x (List.mem_cons_self x xs)]
          exact ih.2 (fun r hr => h r (List.mem_cons_of_mem x hr))
  · induction repos with
    | nil => intro r h; exact absurd h (by simp [check_curr_repo, ccr_loop])
    | cons x xs ih =>
        intro r h
        unfold check_curr_repo at h
        cases hbx : bd x with
        | none =>
            rw [ccr_loop, hbx] at h
            rcases ih r h with ⟨d, pre, post, hsplit, hbd, hmax, hpre⟩
            refine ⟨d, x :: pre, post, by simp [hsplit], hbd, ?_, ?_⟩
            · intro r' hr' d' hd'
              rcases List.mem_cons.1 hr' with h1 | h1
              · subst h1; rw [hbx] at hd'; exact Option.noConfusion hd'
              · exact hmax r' h1 d' hd'
            · intro r' hr' d' hd'
              rcases List.mem_cons.1 hr' with h1 | h1
              · subst h1; rw [hbx] at hd'; exact Option.noConfusion hd'
              · exact hpre r' h1 d' hd'
        | some dx =>
            rw [ccr_loop, hbx] at h
            rcases ccr_spec bd xs dx x r h with ⟨hr, hmax⟩ | ⟨d, pre, post, hsplit, hbd, hlt, hmax, hpre⟩
            · subst hr
              refine ⟨dx, [], xs, rfl, hbx, ?_, by simp⟩
              intro r' hr' d' hd'
              rcases List.mem_cons.1 hr' with h1 | h1
              · subst h1
                have hdd : d' = dx := by
                  rw [hbx] at hd'
                  exact (Option.some_inj.mp hd').symm
                subst hdd; exact le_rfl
              · exact hmax r' h1 d' hd'
            · refine ⟨d, x :: pre, post, by simp [hsplit], hbd, ?_, ?_⟩
              · intro r' hr' d' hd'
                rcases List.mem_cons.1 hr' with h1 | h1
                · subst h1
                  have hdd : d' = dx := by
                    rw [hbx] at hd'
                    exact (Option.some_inj.mp hd').symm
                  subst hdd; exact le_of_lt hlt
                · exact hmax r' h1 d' hd'
              · intro r' hr' d' hd'
                rcases List.mem_cons.1 hr' with h1 | h1
                · subst h1
                  have hdd : d' = dx := by
                    rw [hbx] at hd'
                    exact (Option.some_inj.mp hd').symm
                  subst hdd; exact hlt
                · exact hpre r' h1 d' hd'

theorem check_curr_repo_correct_witness :
    check_curr_repo ["a", "b", "c"]
        (fun x => if x == "b" then some 5 else if x == "c" then some 5 else some (2 : Nat))
      = some "b" ∧
    (∃ d pre post, (["a", "b", "c"] : List String) = pre ++ "b" :: post ∧
      (fun x => if x == "b" then some 5 else if x == "c" then some 5 else some (2 : Nat)) "b"
        = some d ∧
      (∀ r' ∈ (["a", "b", "c"] : List String), ∀ d',
        (fun x => if x == "b" then some 5 else if x == "c" then some 5 else some (2 : Nat)) r'
          = some d' → d' ≤ d) ∧
      (∀ r' ∈ pre, ∀ d',
        (fun x => if x == "b" then some 5 else if x == "c" then some 5 else some (2 : Nat)) r'
          = some d' → d' < d)) := by
  refine ⟨by decide, ?_⟩
  exact (check_curr_repo_correct ["a", "b", "c"]
    (fun x => if x == "b" then some 5 else if x == "c" then some 5 else some (2 : Nat))).2
    "b" (by decide)

theorem enumFrom_fst_ge {γ : Type} :
    ∀ (l : List γ) (n : Nat) (p : Nat × γ), p ∈ l.enumFrom n → n ≤ p.1 := by
  intro l
  induction l with
  | nil => intro n p h; simp at h
  | cons x xs ih =>
      intro n p h
      rcases List.mem_cons.1 h with h1 | h1
      · subst h1; exact le_rfl
      · exact Nat.le_of_succ_le (ih (n + 1) p h1)

theorem enumFrom_pairwise {γ : Type} :
    ∀ (l : List γ) (n : Nat), (l.enumFrom n).Pairwise (fun a b => a.1 < b.1) := by
  intro l
  induction l with
  | nil => intro n; simp
  | cons x xs ih =>
      intro n
      refine List.Pairwise.cons ?_ (ih (n + 1))
      intro p hp
      exact Nat.lt_of_succ_le (enumFrom_fst_ge xs (n + 1) p hp)

theorem tagFrom_key_le {α : Type} :
    ∀ (ts : List (List (α → α))) (i : Nat) (p : (Nat × Nat) × (α → α)),
      p ∈ tagFrom i ts → i ≤ p.1.1 := by
  intro ts
  induction ts with
  | nil => intro i p h; simp [tagFrom] at h
  | cons t ts ih =>
      intro i p h
      rw [tagFrom] at h
      rcases List.mem_append.1 h with h1 | h1
      · rcases List.mem_map.1 h1 with ⟨q, _, rfl⟩
        exact le_rfl
      · exact Nat.le_of_succ_le (ih (i + 1) p h1)

theorem tagFrom_pairwise {α : Type} :
    ∀ (ts : List (List (α → α))) (i : Nat), (tagFrom i ts).Pairwise tagLt := by
  intro ts
  induction ts with
  | nil => intro i; simp [tagFrom]
  | cons t ts ih =>
      intro i
      rw [tagFrom]
      refine List.pairwise_append.2 ⟨?_, ih (i + 1), ?_⟩
      · refine List.pairwise_map.2 ?_
        exact (enumFrom_pairwise t 0).imp (fun {a b} h => Or.inr ⟨rfl, h⟩)
      · intro a ha b hb
        rcases List.mem_map.1 ha with ⟨q, _, rfl⟩
        have hb1 := tagFrom_key_le ts (i + 1) b hb
        refine Or.inl ?_
        show i < b.1.1
        omega

theorem tagFrom_map_snd {α : Type} :
    ∀ (ts : List (List (α → α))) (i : Nat), (tagFrom i ts).map Prod.snd = ts.flatten := by
  intro ts
  induction ts with
  | nil => intro i; rfl
  | cons t ts ih =>
      intro i
      rw [tagFrom, List.map_append, ih (i + 1)]
      congr 1
      rw [List.map_map]
      have hc : (Prod.snd ∘ fun p : Nat × (α → α) => ((i, p.1), p.2)) = Prod.snd := rfl
      rw [hc, List.enum_map_snd]

instance tagLt_antisymm {α : Type} : IsAntisymm ((Nat × Nat) × (α → α)) tagLt := by
  constructor
  intro a b h1 h2
  exfalso
  rcases h1 with h1 | ⟨h1e, h1s⟩ <;> rcases h2 with h2 | ⟨h2e, h2s⟩ <;> omega

/-- C10: any execution trace of the worker pool of `start` that is
admissible under the per-submission barrier — a permutation of the tagged
task operations whose (task, operation) tags are strictly lexicographically
increasing, as forced by busy-waiting on all submitted tasks after each
submission — computes exactly the sequential left-to-right processing of
the tree entries' tasks. -/
theorem pooled_run_eq_sequential {α : Type} (tasks : List (List (α → α)))
    (tr : List ((Nat × Nat) × (α → α))) (s : α)
    (hperm : tr.Perm (tagTasks tasks)) (hbar : tr.Pairwise tagLt) :
    applyTrace (tr.map Prod.snd) s = seqRun tasks s := by
  have hsorted : (tagTasks tasks).Pairwise tagLt := tagFrom_pairwise tasks 0
  have heq : tr = tagTasks tasks := List.eq_of_perm_of_sorted hperm hbar hsorted
  rw [heq]
  show applyTrace ((tagFrom 0 tasks).map Prod.snd) s = _
  rw [tagFrom_map_snd]
  rfl

theorem pooled_run_eq_sequential_witness :
    applyTrace ((tagTasks [[fun n => n + 1], [fun n => n * 2]]).map Prod.snd) 3
      = seqRun [[fun n => n + 1], [fun n => n * 2]] 3 := by
  exact pooled_run_eq_sequential [[fun n => n + 1], [fun n => n * 2]] _ 3
    (List.Perm.refl _) (tagFrom_pairwise [[fun n => n + 1], [fun n => n * 2]] 0)

theorem endswith_excl (s a b : String) (hab : a.data.length ≤ b.data.length)
    (hnot : ¬ a.data <:+ b.data) (ha : endswith s a = true) : endswith s b = false := by
  cases hcase : endswith s b with
  | false => rfl
  | true =>
      exfalso
      apply hnot
      have hbs : b.data <:+ s.data := of_decide_eq_true (show decide (b.data <:+ s.data) = true from hcase)
      have has : a.data <:+ s.data := of_decide_eq_true (show decide (a.data <:+ s.data) = true from ha)
      rcases has with ⟨t1, ht1⟩
      rcases hbs with ⟨t2, ht2⟩
      have hlen : t1.length + a.data.length = t2.length + b.data.length := by
        have hh := congrArg List.length (ht1.trans ht2.symm)
        simpa using hh
      have hd1 : a.data = s.data.drop t1.length := by
        rw [← ht1, List.drop_left]
      have hd2 : b.data = s.data.drop t2.length := by
        rw [← ht2, List.drop_left]
      have hdd : s.data.drop t1.length = b.data.drop (t1.length - t2.length) := by
        rw [hd2, List.drop_drop]
        congr 1
        omega
      rw [hd1, hdd]
      exact List.drop_suffix _ _

theorem ends_vdf_not_manifest (path : String) (h : endswith path ".vdf" = true) :
    endswith path ".manifest" = false :=
  endswith_excl path ".vdf" ".manifest" (by decide) (by decide) h

theorem vdf_cond_false_of_manifest (path : String) (h : endswith path ".manifest" = true) :
    (path == "config.vdf" || path == "Key.vdf") = false := by
  by_cases h1 : path = "config.vdf"
  · subst h1; exact absurd h (by decide)
  by_cases h2 : path = "Key.vdf"
  · subst h2; exact absurd h (by decide)
  simp [h1, h2]

theorem json_cond_false_of_manifest (path : String) (h : endswith path ".manifest" = true) :
    (path == "config.json") = false := by
  by_cases h1 : path = "config.json"
  · subst h1; exact absurd h (by decide)
  simp [h1]

theorem json_cond_false_of_vdf (path : String) (h : endswith path ".vdf" = true) :
    (path == "config.json") = false := by
  by_cases h1 : path = "config.json"
  · subst h1; exact absurd h (by decide)
  simp [h1]

theorem vdfJsonStepsF_noop (sn : String → St → St × Bool) (env : Env)
    (repo branch path : String) (d : Bool) (s : St)
    (h1 : (path == "config.vdf" || path == "Key.vdf") = false)
    (h2 : (path == "config.json") = false) :
    vdfJsonStepsF sn env repo branch path d s = (s, true) := by
  unfold vdfJsonStepsF
  rw [h1, h2]
  simp

theorem strfold_go (l : List String) (init : String) :
    l.foldl (fun r s => r ++ s) init = init ++ String.join l := by
  induction l generalizing init with
  | nil => simp [String.join]
  | cons x xs ih =>
      show List.foldl _ (init ++ x) xs = _
      rw [ih]
      show _ = init ++ List.foldl _ ("" ++ x) xs
      rw [ih ("" ++ x)]
      simp [String.append_assoc]

theorem join_cons (a : String) (l : List String) :
    String.join (a :: l) = a ++ String.join l := by
  show List.foldl _ ("" ++ a) l = _
  rw [strfold_go]
  simp

theorem manifestStepF_cached (sn : String → St → St × Bool) (env : Env)
    (repo branch path : String) (d : Bool) (s : St)
    (h : endswith path ".manifest" = true) (hc : cacheHas s path = true) :
    manifestStepF sn env repo branch path d s
      = ({ s with manifests := s.manifests ++ [path] }, true) := by
  have hc2 : cacheHas { s with manifests := s.manifests ++ [path] } path = true := hc
  simp [manifestStepF, h, hc2]

theorem manifestStepF_records (sn : String → St → St × Bool) (env : Env)
    (repo branch path : String) (d : Bool) (s : St)
    (h : endswith path ".manifest" = true) :
    ((manifestStepF sn env repo branch path d s).1).manifests = s.manifests ++ [path] := by
  unfold manifestStepF
  rw [h]
  by_cases hc : cacheHas { s with manifests := s.manifests ++ [path] } path = true
  · simp [hc]
  · simp only [hc, Bool.false_eq_true, if_false, if_true]
    cases hr : env.rawRes (rawUrl repo branch path) with
    | error e => simp [hr, addReq]
    | ok content =>
        simp only [hr]
        rw [vdfJsonStepsF_noop sn env repo branch path d _
          (vdf_cond_false_of_manifest path h) (json_cond_false_of_manifest path h)]
        simp [addReq]

theorem manifestStepF_success_cached (sn : String → St → St × Bool) (env : Env)
    (repo branch path : String) (d : Bool) (s s1 : St)
    (h : endswith path ".manifest" = true)
    (hs : manifestStepF sn env repo branch path d s = (s1, true)) :
    cacheHas s1 path = true := by
  unfold manifestStepF at hs
  rw [h] at hs
  by_cases hc : cacheHas { s with manifests := s.manifests ++ [path] } path = true
  · simp only [hc, if_true] at hs
    have hs1 : s1 = { s with manifests := s.manifests ++ [path] } := by
      have := congrArg Prod.fst hs
      simpa using this.symm
    rw [hs1]
    exact hc
  · simp only [hc, Bool.false_eq_true, if_false, if_true] at hs
    cases hr : env.rawRes (rawUrl repo branch path) with
    | error e =>
        simp only [hr] at hs
        have := congrArg Prod.snd hs
        simp at this
    | ok content =>
        simp only [hr] at hs
        rw [vdfJsonStepsF_noop sn env repo branch path d _
          (vdf_cond_false_of_manifest path h) (json_cond_false_of_manifest path h)] at hs
        have hs1 : s1 = { addReq { s with manifests := s.manifests ++ [path] }
            (rawUrl repo branch path) with
            cache := ({ s with manifests := s.manifests ++ [path] } : St).cache
              ++ [(path, content)] } := by
          have := congrArg Prod.fst hs
          simpa [addReq] using this.symm
        rw [hs1]
        simp [cacheHas, addReq]

/-- C4: for a `.manifest` tree entry already present in the local cache, the
dispatcher performs no network fetch and leaves the cache (and everything
else except the recorded filename list) unchanged; and after any successful
fetch of a `.manifest` path, invoking the dispatcher again on the same path
performs no network request and leaves the file contents unchanged (the
second call only re-records the filename). -/
theorem manifest_cache_idempotent (fuel : Nat) (env : Env) (fixed : Bool)
    (repo branch path : String) (is_ddlc : Bool) (s : St)
    (h : endswith path ".manifest" = true) :
    (cacheHas s path = true →
      manifestStep fuel env fixed repo branch path is_ddlc s
        = ({ s with manifests := s.manifests ++ [path] }, true)) ∧
    (∀ s1, manifestStep fuel env fixed repo branch path is_ddlc s = (s1, true) →
      manifestStep fuel env fixed repo branch path is_ddlc s1
        = ({ s1 with manifests := s1.manifests ++ [path] }, true)) := by
  constructor
  · intro hc
    exact manifestStepF_cached _ env repo branch path is_ddlc s h hc
  · intro s1 hs
    exact manifestStepF_cached _ env repo branch path is_ddlc s1 h
      (manifestStepF_success_cached _ env repo branch path is_ddlc s s1 h hs)

theorem manifest_cache_idempotent_witness :
    endswith "666_1.manifest" ".manifest" = true ∧
    manifestStep 1 env7 false "r" "123" "666_1.manifest" false
        ⟨["666_1.manifest"], [("666_1.manifest", "KEYDOC")], ["u"], [], []⟩
      = (⟨["666_1.manifest", "666_1.manifest"], [("666_1.manifest", "KEYDOC")], ["u"], [], []⟩,
         true) := by
  refine ⟨by decide, ?_⟩
  have h := (manifest_cache_idempotent 1 env7 false "r" "123" "666_1.manifest" false
    ⟨["666_1.manifest"], [("666_1.manifest", "KEYDOC")], ["u"], [], []⟩ (by decide)).1 (by decide)
  simpa using h

theorem set_fixinfo_all (ms : List String) (h : ∀ x ∈ ms, (fixline x).isSome = true) :
    set_fixinfo_content ms = some (String.join (ms.filterMap fixline)) := by
  induction ms with
  | nil => rfl
  | cons x xs ih =>
      have hx := h x (List.mem_cons_self x xs)
      rcases Option.isSome_iff_exists.1 hx with ⟨line, hline⟩
      rw [set_fixinfo_content, hline, ih (fun y hy => h y (List.mem_cons_of_mem x hy))]
      rw [List.filterMap_cons, hline, join_cons]

/-- C9: every tree entry whose path ends in `.manifest` is appended to the
shared manifest-filename list unconditionally — before the cache-existence
check, and also when the download later fails — and `set_fixinfo` renders
one version-pinning directive per recorded filename (given each recorded
filename is well-formed, i.e. splits on `_`), so in fixed-manifest mode
cached-and-skipped manifests get a directive too. -/
theorem manifest_recorded_before_cache_check (fuel : Nat) (env : Env) (fixed : Bool)
    (repo branch path : String) (is_ddlc : Bool) (s : St)
    (h : endswith path ".manifest" = true) :
    ((manifestStep fuel env fixed repo branch path is_ddlc s).1).manifests
      = s.manifests ++ [path] ∧
    (∀ ms : List String, (∀ x ∈ ms, (fixline x).isSome = true) →
      set_fixinfo_content ms = some (String.join (ms.filterMap fixline))) := by
  exact ⟨manifestStepF_records _ env repo branch path is_ddlc s h,
    fun ms hms => set_fixinfo_all ms hms⟩

theorem manifest_recorded_before_cache_check_witness :
    ((manifestStep 1 env7 false "r" "123" "666_1.manifest" false
        ⟨[], [("666_1.manifest", "KEYDOC")], [], [], []⟩).1).manifests = ["666_1.manifest"] ∧
    set_fixinfo_content ["666_1.manifest"] = some "setManifestid(666, \"1\")\n" := by
  have h := manifest_recorded_before_cache_check 1 env7 false "r" "123" "666_1.manifest" false
    ⟨[], [("666_1.manifest", "KEYDOC")], [], [], []⟩ (by decide)
  constructor
  · simpa using h.1
  · have h2 := h.2 ["666_1.manifest"] (by decide)
    simpa using h2

/-- C8: the entry dispatcher treats a tree entry as a key document exactly
when its path is `config.vdf` or `Key.vdf` — on those paths the dispatch is
precisely the key-document action (fetch and parse the depot keys and emit
the unlock script) — while any other path ending in `.vdf` is ignored: the
dispatch returns the state unchanged and succeeds. -/
theorem vdf_key_doc_dispatch (fuel : Nat) (env : Env) (fixed : Bool)
    (repo branch : String) (is_ddlc : Bool) (s : St) :
    (∀ path, path = "config.vdf" ∨ path = "Key.vdf" →
      manifestStep fuel env fixed repo branch path is_ddlc s
        = keyDocAction env repo branch path is_ddlc s) ∧
    (∀ path, endswith path ".vdf" = true → path ≠ "config.vdf" → path ≠ "Key.vdf" →
      manifestStep fuel env fixed repo branch path is_ddlc s = (s, true)) := by
  constructor
  · rintro path (rfl | rfl)
    · have e1 : endswith "config.vdf" ".manifest" = false := by decide
      have e2 : (("config.vdf" : String) == "config.vdf"
          || ("config.vdf" : String) == "Key.vdf") = true := by decide
      have e3 : endswith "config.vdf" ".vdf" = true := by decide
      have e4 : (("config.vdf" : String) == "config.json") = false := by decide
      simp [manifestStep, manifestStepF, vdfJsonStepsF, e1, e2, e3, e4]
    · have e1 : endswith "Key.vdf" ".manifest" = false := by decide
      have e2 : (("Key.vdf" : String) == "config.vdf"
          || ("Key.vdf" : String) == "Key.vdf") = true := by decide
      have e3 : endswith "Key.vdf" ".vdf" = true := by decide
      have e4 : (("Key.vdf" : String) == "config.json") = false := by decide
      simp [manifestStep, manifestStepF, vdfJsonStepsF, e1, e2, e3, e4]
  · intro path hv h1 h2
    unfold manifestStep manifestStepF
    rw [ends_vdf_not_manifest path hv]
    simp only [Bool.false_eq_true, if_false]
    exact vdfJsonStepsF_noop _ env repo branch path is_ddlc s
      (by simp [h1, h2]) (json_cond_false_of_vdf path hv)

theorem vdf_key_doc_dispatch_witness :
    manifestStep 1 env7 false "r" "123" "Key.vdf" false st0
      = keyDocAction env7 "r" "123" "Key.vdf" false st0 ∧
    manifestStep 1 env7 false "r" "123" "other.vdf" false st0 = (st0, true) := by
  constructor
  · exact (vdf_key_doc_dispatch 1 env7 false "r" "123" false st0).1 "Key.vdf" (Or.inr rfl)
  · exact (vdf_key_doc_dispatch 1 env7 false "r" "123" false st0).2 "other.vdf"
      (by decide) (by decide) (by decide)

theorem addReq_reported (s : St) (u : String) : (addReq s u).reported = s.reported := rfl

theorem implicitEmit_reported (bi : BranchInfo) (d : Bool) (s : St) :
    (implicitEmit bi d s).reported = s.reported := by
  unfold implicitEmit
  split <;> rfl

theorem keyDocAction_reported (env : Env) (repo branch path : String) (d : Bool) (s : St) :
    ((keyDocAction env repo branch path d s).1).reported = s.reported := by
  cases hr : env.rawRes (rawUrl repo branch path) with
  | error e => simp [keyDocAction, hr, addReq]
  | ok content =>
      cases hv : env.vdfDepots content with
      | none => simp [keyDocAction, hr, hv, addReq]
      | some depots => simp [keyDocAction, hr, hv, addReq]

theorem cfgFinish_reported (branch : String) (dl1 : List (String × Option String))
    (r : St × Bool) : ((cfgFinish branch dl1 r).1).reported = (r.1).reported := by
  rcases r with ⟨a, b⟩
  cases b <;> simp [cfgFinish] <;> split <;> rfl

theorem ddlcLoop_go_reported (sn : String → St → St × Bool)
    (hsn : ∀ dlc st, ((sn dlc st).1).reported = st.reported) (dd : List String) :
    ∀ (acc : St × Bool),
      ((dd.foldl (fun (acc : St × Bool) dlc => if acc.2 then sn dlc acc.1 else acc) acc).1).reported
        = (acc.1).reported := by
  induction dd with
  | nil => intro acc; rfl
  | cons x xs ih =>
      intro acc
      rw [List.foldl_cons, ih]
      rcases acc with ⟨a, b⟩
      cases b
      · simp
      · simp [hsn]

theorem ddlcLoop_reported (sn : String → St → St × Bool)
    (hsn : ∀ dlc st, ((sn dlc st).1).reported = st.reported) (dd : List String) (s : St) :
    ((ddlcLoop sn dd s).1).reported = s.reported := by
  have h := ddlcLoop_go_reported sn hsn dd (s, true)
  simpa [ddlcLoop] using h

theorem configJsonActionF_reported (sn : String → St → St × Bool)
    (hsn : ∀ dlc st, ((sn dlc st).1).reported = st.reported)
    (env : Env) (repo branch : String) (d : Bool) (s : St) :
    ((configJsonActionF sn env repo branch d s).1).reported = s.reported := by
  cases hc : env.configRes (rawUrl repo branch "config.json") with
  | error e => simp [configJsonActionF, hc, addReq]
  | ok cfg =>
      cases hdl : (if isdecimal branch then cfg.dlcs else cfg.apps) with
      | none => simp [configJsonActionF, hc, hdl, addReq]
      | some dlcs =>
          cases hdd : cfg.packagedlcs with
          | none =>
              simp only [configJsonActionF, hc, hdl, hdd]
              rw [cfgFinish_reported]
              simp [addReq]
          | some dd =>
              by_cases hl : 0 < dd.length
              · simp only [configJsonActionF, hc, hdl, hdd, hl, if_true]
                rw [cfgFinish_reported, ddlcLoop_reported sn hsn]
                simp [addReq]
              · simp only [configJsonActionF, hc, hdl, hdd, hl, if_false]
                rw [cfgFinish_reported]
                simp [addReq]

theorem vdfJsonStepsF_reported (sn : String → St → St × Bool)
    (hsn : ∀ dlc st, ((sn dlc st).1).reported = st.reported)
    (env : Env) (repo branch path : String) (d : Bool) (s : St) :
    ((vdfJsonStepsF sn env repo branch path d s).1).reported = s.reported := by
  unfold vdfJsonStepsF
  by_cases h1 : (endswith path ".vdf" && (path == "config.vdf" || path == "Key.vdf")) = true
  · simp only [h1, if_true]
    have hk := keyDocAction_reported env repo branch path d s
    by_cases h2 : (keyDocAction env repo branch path d s).2 = true
    · simp only [h2, if_true]
      by_cases h3 : (endswith path ".json" && (path == "config.json")) = true
      · simp only [h3, if_true]
        rw [configJsonActionF_reported sn hsn]
        exact hk
      · rw [Bool.not_eq_true] at h3
        simp only [h3, Bool.false_eq_true, if_false]
        exact hk
    · rw [Bool.not_eq_true] at h2
      simp only [h2, Bool.false_eq_true, if_false]
      exact hk
  · rw [Bool.not_eq_true] at h1
    simp only [h1, Bool.false_eq_true, if_false, if_true]
    by_cases h3 : (endswith path ".json" && (path == "config.json")) = true
    · simp only [h3, if_true]
      exact configJsonActionF_reported sn hsn env repo branch d s
    · rw [Bool.not_eq_true] at h3
      simp only [h3, Bool.false_eq_true, if_false]

theorem manifestStepF_reported (sn : String → St → St × Bool)
    (hsn : ∀ dlc st, ((sn dlc st).1).reported = st.reported)
    (env : Env) (repo branch path : String) (d : Bool) (s : St) :
    ((manifestStepF sn env repo branch path d s).1).reported = s.reported := by
  unfold manifestStepF
  by_cases hm : endswith path ".manifest" = true
  · simp only [hm, if_true]
    by_cases hc : cacheHas { s with manifests := s.manifests ++ [path] } path = true
    · simp [hc]
    · rw [Bool.not_eq_true] at hc
      simp only [hc, Bool.false_eq_true, if_false]
      cases hr : env.rawRes (rawUrl repo branch path) with
      | error e => simp [addReq]
      | ok content =>
          simp only [hr]
          rw [vdfJsonStepsF_reported sn hsn]
          simp [addReq]
  · rw [Bool.not_eq_true] at hm
    simp only [hm, Bool.false_eq_true, if_false]
    exact vdfJsonStepsF_reported sn hsn env repo branch path d s

theorem dispatchAllF_reported (sn : String → St → St × Bool)
    (hsn : ∀ dlc st, ((sn dlc st).1).reported = st.reported)
    (env : Env) (repo branch : String) (d : Bool) :
    ∀ (tree : List TreeEntry) (s : St),
      ((dispatchAllF sn env repo branch d tree s).1).reported = s.reported := by
  intro tree
  induction tree with
  | nil => intro s; rfl
  | cons e es ih =>
      intro s
      rw [dispatchAllF]
      simp only
      rw [ih]
      exact manifestStepF_reported sn hsn env repo branch e.path d s

theorem startRun_ddlc_reported :
    ∀ (fuel : Nat) (env : Env) (fixed : Bool) (repo branch : String) (s : St),
      ((startRun fuel env fixed repo branch true s).1).reported = s.reported := by
  intro fuel
  induction fuel with
  | zero => intro env fixed repo branch s; rfl
  | succ f ih =>
      intro env fixed repo branch s
      cases hb : env.branchRes repo branch with
      | error e => simp [startRun, hb, addReq]
      | ok bi =>
          cases ht : env.treeRes bi.treeUrl with
          | error e => simp [startRun, hb, ht, addReq]
          | ok otree =>
              cases otree with
              | none => simp [startRun, hb, ht, addReq]
              | some tree =>
                  have hsn : ∀ dlc st, ((startRun f env fixed repo dlc true st).1).reported
                      = st.reported := fun dlc st => ih env fixed repo dlc st
                  simp only [startRun, hb, ht]
                  split
                  · split
                    · simp [dispatchAllF_reported _ hsn, implicitEmit_reported, addReq]
                    · next hfalse => exact absurd trivial hfalse
                  · simp [dispatchAllF_reported _ hsn, implicitEmit_reported, addReq]

theorem dispatchAll_reported (fuel : Nat) (env : Env) (fixed : Bool)
    (repo branch : String) (d : Bool) (tree : List TreeEntry) (s : St) :
    ((dispatchAll fuel env fixed repo branch d tree s).1).reported = s.reported :=
  dispatchAllF_reported _ (fun dlc st => startRun_ddlc_reported fuel env fixed repo dlc st)
    env repo branch d tree s

theorem preDispatch_reported (repo branch : String) (bi : BranchInfo) (d : Bool) (s : St) :
    (preDispatch repo branch bi d s).reported = s.reported := by
  unfold preDispatch
  rw [implicitEmit_reported]
  rfl

/-- C2 counterexample: branch `123` of `env0` has two dispatch tasks; the
first (a manifest download) fails while the second (the key document)
succeeds — yet unlock scripts ARE emitted for that identifier (the
pre-dispatch implicit script and the key-document script of the succeeding
task), contradicting "if any one task fails, no script is emitted for that
identifier". -/
theorem emission_despite_task_failure :
    (dispatchAll 1 env0 true "r" "123" false [⟨"666_1.manifest"⟩, ⟨"config.vdf"⟩]
        (preDispatch "r" "123" ⟨"123", "tree:123", "2024-01-01"⟩ false st0)).2
      = [false, true] ∧
    (startRun 2 env0 true "r" "123" false st0).1.emitted ≠ st0.emitted ∧
    ((startRun 2 env0 true "r" "123" false st0).1.emitted).length = 2 := by
  refine ⟨by decide, by decide, by decide⟩

/-- C2 (amended): the barrier of `start` gates only what follows it — when
any dispatch task of a non-nested tree walk fails, the invocation performs
nothing after the dispatch loop: no version-pinning (`_F.lua`) script, no
success report (the run's reported list is unchanged), and `start` returns
normally; unlock scripts already emitted by the succeeding tasks (and the
pre-dispatch implicit script) are not suppressed. -/
theorem startRun_barrier_gate (f : Nat) (env : Env) (fixed : Bool) (repo branch : String)
    (s : St) (bi : BranchInfo) (tree : List TreeEntry)
    (hb : env.branchRes repo branch = .ok bi)
    (ht : env.treeRes bi.treeUrl = .ok (some tree))
    (hfail : (dispatchAll f env fixed repo bi.name false tree
        (preDispatch repo branch bi false s)).2.all (fun b => b) = false) :
    startRun (Nat.succ f) env fixed repo branch false s
      = ((dispatchAll f env fixed repo bi.name false tree
          (preDispatch repo branch bi false s)).1, true) ∧
    ((startRun (Nat.succ f) env fixed repo branch false s).1).reported = s.reported := by
  have hkey : startRun (Nat.succ f) env fixed repo branch false s
      = ((dispatchAll f env fixed repo bi.name false tree
          (preDispatch repo branch bi false s)).1, true) := by
    simp only [dispatchAll, preDispatch] at hfail
    simp only [startRun, hb, ht, dispatchAll, preDispatch]
    simp only [hfail, Bool.false_eq_true, if_false]
  refine ⟨hkey, ?_⟩
  rw [hkey]
  show ((dispatchAll f env fixed repo bi.name false tree
      (preDispatch repo branch bi false s)).1).reported = s.reported
  rw [dispatchAll_reported, preDispatch_reported]

theorem startRun_barrier_gate_witness :
    startRun 2 env0 true "r" "123" false st0
      = ((dispatchAll 1 env0 true "r" "123" false [⟨"666_1.manifest"⟩, ⟨"config.vdf"⟩]
          (preDispatch "r" "123" ⟨"123", "tree:123", "2024-01-01"⟩ false st0)).1, true) ∧
    (startRun 2 env0 true "r" "123" false st0).1.reported = st0.reported := by
  exact startRun_barrier_gate 1 env0 true "r" "123" st0 ⟨"123", "tree:123", "2024-01-01"⟩
    [⟨"666_1.manifest"⟩, ⟨"config.vdf"⟩] rfl rfl (by decide)

/-- C7 counterexample: a nested (ddlc) tree walk whose tree contains the key
document `config.vdf` emits an unlock script of its own (and returns
normally), contradicting "a nested invocation emits no unlock script of its
own". -/
theorem nested_run_emits_counterexample :
    (startRun 1 env7 false "r" "123" true st0).1.emitted ≠ [] ∧
    (startRun 1 env7 false "r" "123" true st0).2 = true := by
  refine ⟨by decide, by decide⟩

/-- C7 (amended): a nested (ddlc) invocation of the tree walk skips only the
pre-dispatch implicit emission and everything after the barrier (it adds no
success report and no version-pinning script; its result state is exactly
the dispatch loop's state); but its dispatch tasks still emit unlock
scripts for the key and metadata documents they encounter, and the only
spec-level accumulator it contributes to is the shared manifest-filename
list threaded through the state. -/
theorem startRun_nested_dispatch_only (f : Nat) (env : Env) (fixed : Bool)
    (repo branch : String) (s : St) (bi : BranchInfo) (tree : List TreeEntry)
    (hb : env.branchRes repo branch = .ok bi)
    (ht : env.treeRes bi.treeUrl = .ok (some tree)) :
    startRun (Nat.succ f) env fixed repo branch true s
      = ((dispatchAll f env fixed repo bi.name true tree
          (preDispatch repo branch bi true s)).1, true) ∧
    ((startRun (Nat.succ f) env fixed repo branch true s).1).reported = s.reported ∧
    preDispatch repo branch bi true s
      = addReq (addReq s (branchUrl repo branch)) bi.treeUrl := by
  have hkey : startRun (Nat.succ f) env fixed repo branch true s
      = ((dispatchAll f env fixed repo bi.name true tree
          (preDispatch repo branch bi true s)).1, true) := by
    simp only [startRun, hb, ht, dispatchAll, preDispatch]
    split
    · split
      · rfl
      · next hfalse => exact absurd trivial hfalse
    · rfl
  refine ⟨hkey, ?_, ?_⟩
  · rw [hkey]
    show ((dispatchAll f env fixed repo bi.name true tree
        (preDispatch repo branch bi true s)).1).reported = s.reported
    rw [dispatchAll_reported, preDispatch_reported]
  · simp [preDispatch, implicitEmit]

theorem startRun_nested_dispatch_only_witness :
    startRun 1 env7 false "r" "123" true st0
      = ((dispatchAll 0 env7 false "r" "123" true [⟨"config.vdf"⟩]
          (preDispatch "r" "123" ⟨"123", "tree:123", "2024-01-01"⟩ true st0)).1, true) ∧
    (startRun 1 env7 false "r" "123" true st0).1.reported = st0.reported ∧
    preDispatch "r" "123" ⟨"123", "tree:123", "2024-01-01"⟩ true st0
      = addReq (addReq st0 (branchUrl "r" "123")) "tree:123" := by
  exact startRun_nested_dispatch_only 0 env7 false "r" "123" st0
    ⟨"123", "tree:123", "2024-01-01"⟩ [⟨"config.vdf"⟩] rfl rfl
